import Mathlib

/-!
Verification development for the execution core of the COSMOS/kosmos workflow
engine (src/kosmos/models/Execution.py, src/kosmos/util/args.py,
src/cosmos/util/sqla.py).

The embedding models:
 - the task-status and execution-status state machines;
 - the in-memory task queue (a networkx DiGraph copy) with in-degree and
   node-removal operations;
 - the admission sweep `_run_ready_tasks` (Execution.py lines 315-330);
 - the finished-task generator `_process_finished_tasks` (lines 333-341)
   together with its consumer in `Execution.run` (lines 223-224), with the
   generator's suspension points made explicit;
 - `Execution.run` (lines 155-232), `Execution.terminate` (lines 240-246),
   the status setter (lines 65-75) and its signal observer
   `_execution_status_changed` (lines 31-41);
 - `Execution.start` (lines 83-140) over a small relational-store model.

The DRM-facing JobManager (kosmos/job/JobManager.py) is code of this
repository that is not under src/; its submit / running_tasks /
get_finished_tasks / terminate contract is modelled from the spec (section 6),
and those definitions carry a `Modelled from the spec:` note.
-/

namespace Kosmos

/-- Task status enumeration.  `no_attempt`, `successful`, `failed` are the
persisted states; `submitted` is the in-flight state a task enters on
`JobManager.submit` (spec section 4.1). -/
inductive TaskStatus
  | no_attempt
  | submitted
  | successful
  | failed
deriving DecidableEq, Repr

/-- ExecutionStatus enumeration of Execution.py (`no_attempt`, `running`,
`successful`, `failed`, `killed`). -/
inductive ExecStatus
  | no_attempt
  | running
  | successful
  | failed
  | killed
deriving DecidableEq, Repr

/-- A TaskFile: `basename` plus a nullable `path` (set lazily by the
scheduler). -/
structure TaskFile where
  basename : String
  path : Option String
deriving DecidableEq, Repr

/-- A Task node.  `cpu_req`, `must_succeed`, `NOOP` are the attributes read by
the scheduler; `status`, `output_dir`, `log_dir`, `command`, `output_files`
are the attributes it mutates.  The task's DRM profile is carried separately
as the reported exit status. -/
structure Task where
  id : Nat
  cpu_req : Nat
  must_succeed : Bool
  NOOP : Bool
  status : TaskStatus := .no_attempt
  output_dir : Option String := none
  log_dir : Option String := none
  command : Option String := none
  output_files : List TaskFile := []
deriving DecidableEq, Repr

/-- The mutable task table: Python task objects are shared by identity between
`task_g` and `task_queue`; here the graphs hold ids and the table holds the
object state, looked up by id. -/
def lookupTask (table : List Task) (i : Nat) : Option Task :=
  table.find? (fun t => decide (t.id = i))

/-- Point update of the task object with id `i` (all entries carrying that id,
matching Python object identity where ids are unique). -/
def updateTask (table : List Task) (i : Nat) (f : Task → Task) : List Task :=
  table.map (fun t => if t.id = i then f t else t)

/-- The status of the task object with id `i` (defaulting to `no_attempt` for
an id absent from the table). -/
def statusOf (table : List Task) (i : Nat) : TaskStatus :=
  ((lookupTask table i).map Task.status).getD .no_attempt

/-- The cpu_req of the task object with id `i`. -/
def cpuOf (table : List Task) (i : Nat) : Nat :=
  ((lookupTask table i).map Task.cpu_req).getD 0

/-- A directed graph in the style of networkx DiGraph: an edge (u, v) means v
depends on u.  `_copy_graph` (Execution.py lines 306-312) produces such a
mutable copy for the task queue. -/
structure Graph where
  nodes : List Nat
  edges : List (Nat × Nat)
deriving DecidableEq, Repr

/-- networkx in_degree: the number of edges into `v`. -/
def Graph.inDegree (g : Graph) (v : Nat) : Nat :=
  (g.edges.filter (fun e => decide (e.2 = v))).length

/-- networkx remove_node: removes the node and its incident edges. -/
def Graph.removeNode (g : Graph) (v : Nat) : Graph :=
  { nodes := g.nodes.filter (fun n => decide (n ≠ v)),
    edges := g.edges.filter (fun e => decide (e.1 ≠ v ∧ e.2 ≠ v)) }

/-- networkx remove_nodes_from. -/
def Graph.removeNodesFrom (g : Graph) (vs : List Nat) : Graph :=
  vs.foldl Graph.removeNode g

/-- Modelled from the spec: the JobManager (kosmos/job/JobManager.py, not under
src/) per spec section 6: `running` is the snapshot of in-flight tasks,
`finishedQueue` the completion queue drained by get_finished_tasks, and
`terminated` records that JobManager.terminate was invoked. -/
structure JobManager where
  running : List Nat
  finishedQueue : List (Nat × Option Int)
  terminated : Bool
deriving DecidableEq, Repr

/-- Modelled from the spec: `submit(task)` hands the task off for execution and
"must track the task as running thereafter" (spec section 6). -/
def JobManager.submit (jm : JobManager) (i : Nat) : JobManager :=
  { jm with running := jm.running ++ [i] }

/-- Modelled from the spec: the DRM completing jobs.  Each report entry
(task id, exit status) moves that task from `running` to the completion queue;
entries naming a task that is not in flight are ignored (the DRM reports each
submitted job exactly once). -/
def drmDeliver : JobManager → List (Nat × Option Int) → JobManager
  | jm, [] => jm
  | jm, p :: rest =>
    if jm.running.contains p.1 then
      drmDeliver
        { jm with running := jm.running.filter (fun x => decide (x ≠ p.1)),
                  finishedQueue := jm.finishedQueue ++ [p] } rest
    else drmDeliver jm rest

/-- Modelled from the spec: `get_finished_tasks` "drains the completion queue"
and "returns as many as are immediately available" (spec section 6); each
returned task carries its profile exit_status.  The `at_least_one = true`
blocking behaviour is modelled at the call site: an empty drain there means the
scheduler would block forever. -/
def getFinishedTasks (jm : JobManager) : List (Nat × Option Int) × JobManager :=
  (jm.finishedQueue, { jm with finishedQueue := [] })

/-- The execution-level mutable state: `status` (the `_status` column behind
the synonym property), the `successful` flag, and presence flags for the
`finished_on` and `started_on` timestamps. -/
structure ExecState where
  status : ExecStatus := .no_attempt
  successful : Bool := false
  finished_on : Bool := false
  started_on : Bool := false
deriving DecidableEq, Repr

/-- Embeds `_execution_status_changed` (Execution.py lines 31-41), the observer
fired by the status setter: when the new status is successful, failed or
killed it sets `finished_on`; when it is successful it sets `successful`.
It never unsets either field. -/
def execStatusChanged (e : ExecState) : ExecState :=
  let e1 :=
    if e.status = .successful ∨ e.status = .failed ∨ e.status = .killed then
      { e with finished_on := true }
    else e
  if e1.status = .successful then { e1 with successful := true } else e1

/-- Embeds the `status` synonym setter (Execution.py lines 65-75): assign and
fire the signal only when the value actually changes. -/
def setExecStatus (e : ExecState) (v : ExecStatus) : ExecState :=
  if e.status = v then e else execStatusChanged { e with status := v }

/-- Embeds the execution-state part of `Execution.run`'s entry (lines
179-184): set status to running, clear the `successful` flag, assign
`started_on` if unset. -/
def runEntryStep (e : ExecState) : ExecState :=
  let e1 := setExecStatus e .running
  let e2 := { e1 with successful := false }
  if e2.started_on then e2 else { e2 with started_on := true }

/-- os.path.join for the paths the scheduler builds. -/
def pathJoin (a b : String) : String := a ++ "/" ++ b

/-- Embeds the taskfile path rendering that appears both in run (lines
209-211) and in `_run_ready_tasks` (lines 326-328): every output file whose
path is still null gets `join(task.output_dir, basename)`. -/
def finalizeOutputFiles (t : Task) : Task :=
  { t with
    output_files := t.output_files.map (fun f =>
      if f.path = none then
        { f with path := some (pathJoin (t.output_dir.getD "") f.basename) }
      else f) }

/-- The comparison key of the admission sweep: Python's
`sorted(ready_tasks, key=lambda t: t.cpu_req)`. -/
def cpuLE (a b : Task) : Prop := a.cpu_req ≤ b.cpu_req

instance : DecidableRel cpuLE := fun a b => Nat.decLe a.cpu_req b.cpu_req

instance : IsTotal Task cpuLE := ⟨fun a b => Nat.le_total a.cpu_req b.cpu_req⟩

instance : IsTrans Task cpuLE := ⟨fun _ _ _ h h' => Nat.le_trans h h'⟩

/-- Sum of cpu_req over the tasks currently tracked as running
(`sum([t.cpu_req for t in execution.jobmanager.running_tasks])`, line 320). -/
def coresUsed (table : List Task) (running : List Nat) : Nat :=
  (running.map (cpuOf table)).sum

/-- Result of one admission sweep: the updated task table and JobManager, the
submitted candidates in submission order, and, for instrumentation, the value
of `coresUsed` right after each submission. -/
structure SweepResult where
  table : List Task
  jm : JobManager
  submitted : List Task
  loads : List Nat
deriving DecidableEq, Repr

/-- Embeds the candidate loop of `_run_ready_tasks` (Execution.py lines
319-330): for each candidate in order, recompute `cores_used`; if `max_cpus`
is not null and `cpu_req + cores_used > max_cpus`, break the sweep; otherwise
render the output-file paths and submit.  The status change to `submitted` on
submit is modelled from the spec (section 4.1, "no_attempt -> submitted on
JobManager.submit"); without it the task would be re-selected forever. -/
def sweepGo (max_cpus : Option Nat) : List Task → List Task → JobManager → SweepResult
  | [], table, jm => ⟨table, jm, [], []⟩
  | c :: rest, table, jm =>
    let cores_used := coresUsed table jm.running
    let stop : Bool :=
      match max_cpus with
      | some m => decide (c.cpu_req + cores_used > m)
      | none => false
    if stop then ⟨table, jm, [], []⟩
    else
      let table1 := updateTask table c.id
        (fun u => { finalizeOutputFiles u with status := .submitted })
      let jm1 := jm.submit c.id
      let r := sweepGo max_cpus rest table1 jm1
      ⟨r.table, r.jm, c :: r.submitted, coresUsed table1 jm1.running :: r.loads⟩

/-- The ready set of `_run_ready_tasks` (lines 317-318): queue nodes with
in-degree 0 whose status is `no_attempt`. -/
def readyTasks (table : List Task) (g : Graph) : List Task :=
  (g.nodes.filterMap (lookupTask table)).filter
    (fun t => decide (g.inDegree t.id = 0 ∧ t.status = .no_attempt))

/-- The ready set sorted ascending by cpu_req (line 319); `insertionSort` with
a non-strict key comparison is stable, like Python's `sorted`. -/
def sortedReadyTasks (table : List Task) (g : Graph) : List Task :=
  List.insertionSort cpuLE (readyTasks table g)

/-- Embeds `_run_ready_tasks` (Execution.py lines 315-330). -/
def runReadyTasks (table : List Task) (g : Graph) (jm : JobManager)
    (max_cpus : Option Nat) : SweepResult :=
  sweepGo max_cpus (sortedReadyTasks table g) table jm

/-- Result of draining one batch of finished tasks through
`_process_finished_tasks` plus its consumer: the updated table and queue, the
removals (task id, status at the moment `remove_node` ran, status once the
generator resumed), the batch entries actually reached, and the id of the
must_succeed task whose failure aborted the batch, if any. -/
structure ProcessResult where
  table : List Task
  queue : Graph
  removals : List (Nat × TaskStatus × TaskStatus)
  processed : List (Nat × Option Int)
  aborted : Option Nat
deriving DecidableEq, Repr

/-- Embeds the generator `_process_finished_tasks` (Execution.py lines 333-341)
interleaved with its consumer in `Execution.run` (lines 223-224,
`for task in ...: task_queue.remove_node(task)`).  Generator suspension is
explicit: in the success branch the status is assigned and then the task is
yielded (so the consumer removes it after the assignment); in the
soft-failure branch (`must_succeed == false`) the task is yielded first and
`task.status = TaskStatus.failed` runs only when the generator resumes, i.e.
after `remove_node`.  Modelled from the spec: a must_succeed task set to
`failed` raises ExecutionFailed from the task-status observer (spec sections
4.1 and 7); no other placement lets run's loop (lines 220-224, which contains
no raise) terminate on such a failure.  The raise abandons the rest of the
batch. -/
def processFinishedLoop : List (Nat × Option Int) → List Task → Graph → ProcessResult
  | [], table, queue => ⟨table, queue, [], [], none⟩
  | (i, ex) :: rest, table, queue =>
    match lookupTask table i with
    | none =>
      -- unreachable for tasks drained from JobManager.running; skip the entry
      processFinishedLoop rest table queue
    | some t =>
      if ex = some 0 ∨ t.NOOP then
        let table1 := updateTask table i (fun u => { u with status := .successful })
        let atRemoval := statusOf table1 i
        let queue1 := queue.removeNode i
        let r := processFinishedLoop rest table1 queue1
        ⟨r.table, r.queue, (i, atRemoval, atRemoval) :: r.removals,
          (i, ex) :: r.processed, r.aborted⟩
      else if t.must_succeed = false then
        let atRemoval := statusOf table i
        let queue1 := queue.removeNode i
        let table1 := updateTask table i (fun u => { u with status := .failed })
        let afterResume := statusOf table1 i
        let r := processFinishedLoop rest table1 queue1
        ⟨r.table, r.queue, (i, atRemoval, afterResume) :: r.removals,
          (i, ex) :: r.processed, r.aborted⟩
      else
        let table1 := updateTask table i (fun u => { u with status := .failed })
        ⟨table1, queue, [], [(i, ex)], some i⟩

/-- Embeds `Execution.terminate` (Execution.py lines 240-246).  The source
calls `_process_finished_tasks(self.jobmanager, at_least_one=False)` but never
iterates the resulting generator object, so the generator body never runs: no
finished task is drained from the completion queue and no task status is
assigned.  Only `JobManager.terminate()` (modelled from the spec as setting
the `terminated` flag, section 6) and the execution-status assignment take
effect; when `self.jobmanager` is None both are skipped except the status
assignment. -/
def terminateExec (table : List Task) (e : ExecState) (jm : Option JobManager) :
    List Task × ExecState × Option JobManager :=
  match jm with
  | some j => (table, setExecStatus e .killed, some { j with terminated := true })
  | none => (table, setExecStatus e .killed, none)

/-- How `Execution.run` ends in this model. -/
inductive RunOutcome
  | completed
  | executionFailed
  | blocked
  | assertionError
deriving DecidableEq, Repr

/-- Observable result of `Execution.run`: final table, queue, JobManager and
execution state, plus instrumentation: submissions in order, the coresUsed
value after every submission, the removals with the statuses observed at
removal time, and the id of an aborting must_succeed failure. -/
structure RunResult where
  table : List Task
  queue : Graph
  jm : JobManager
  exec : ExecState
  submissions : List Nat
  loads : List Nat
  removals : List (Nat × TaskStatus × TaskStatus)
  aborted : Option Nat
  outcome : RunOutcome
deriving DecidableEq, Repr

/-- Embeds the scheduler loop of `Execution.run` (lines 220-232): while the
queue is non-empty, run one admission sweep, let the DRM complete the jobs the
round's report names, drain the completion queue (get_finished_tasks with
at_least_one True: an empty drain means the call would block forever, marked
`blocked`), and process the batch; an ExecutionFailed abort runs
`self.terminate()` and re-raises (lines 230-232).  On clean drain the status
is set to successful (line 226). -/
def runLoopGo (max_cpus : Option Nat) :
    List (List (Nat × Option Int)) → List Task → Graph → JobManager → ExecState → RunResult
  | sched, table, queue, jm, e =>
    if queue.nodes = [] then
      ⟨table, queue, jm, setExecStatus e .successful, [], [], [], none, .completed⟩
    else
      match sched with
      | [] => ⟨table, queue, jm, e, [], [], [], none, .blocked⟩
      | report :: rest =>
        let sw := runReadyTasks table queue jm max_cpus
        let jm1 := drmDeliver sw.jm report
        let fin := getFinishedTasks jm1
        if fin.1 = [] then
          ⟨sw.table, queue, fin.2, e, sw.submitted.map Task.id, sw.loads, [], none, .blocked⟩
        else
          let pr := processFinishedLoop fin.1 sw.table queue
          match pr.aborted with
          | some i =>
            let tr := terminateExec pr.table e (some fin.2)
            ⟨tr.1, pr.queue, (tr.2.2).getD fin.2, tr.2.1,
              sw.submitted.map Task.id, sw.loads, pr.removals, some i, .executionFailed⟩
          | none =>
            let r := runLoopGo max_cpus rest pr.table pr.queue fin.2 e
            ⟨r.table, r.queue, r.jm, r.exec,
              sw.submitted.map Task.id ++ r.submissions, sw.loads ++ r.loads,
              pr.removals ++ r.removals, r.aborted, r.outcome⟩

/-- Embeds the directory-assignment loop of run (lines 201-211): for each
queued task compute output_dir, compute log_dir from the updated task, assert
the log_dir is not already taken (AssertionError otherwise), record it, and
render still-null output-file paths. -/
def assignDirs (fod fld : Task → String) :
    List Nat → List Task → List String → Except Unit (List Task)
  | [], table, _ => .ok table
  | i :: rest, table, seen =>
    match lookupTask table i with
    | none => assignDirs fod fld rest table seen
    | some t =>
      let od := fod t
      let t1 := { t with output_dir := some od }
      let ld := fld t1
      if seen.contains ld then .error ()
      else
        assignDirs fod fld rest
          (updateTask table i
            (fun u => finalizeOutputFiles { u with output_dir := some od, log_dir := some ld }))
          (ld :: seen)

/-- Embeds the command-generation loop of run (lines 214-216): every queued
non-NOOP task gets its command from its tool. -/
def assignCommands (fcmd : Task → String) : List Nat → List Task → List Task
  | [], table => table
  | i :: rest, table =>
    match lookupTask table i with
    | none => assignCommands fcmd rest table
    | some t =>
      if t.NOOP then assignCommands fcmd rest table
      else
        assignCommands fcmd rest
          (updateTask table i (fun u => { u with command := some (fcmd t) }))

/-- Embeds `Execution.run` (Execution.py lines 155-232) from its entry: set
status running and clear `successful` (179-180), create a fresh JobManager
(182), assign started_on (183-184), build the task queue as the graph copy
minus already-successful tasks (191-194), assign directories with the
duplicate-log_dir assertion (201-211), generate commands (214-216), then
either return (dry, line 220 guard) or run the scheduler loop.  The recipe
rendering (line 187) is an external collaborator; its output is the `table0`
and `task_g` parameters.  Logging and session commits have no observable
effect in this state model and are omitted. -/
def runExec (table0 : List Task) (task_g : Graph) (max_cpus : Option Nat)
    (schedule : List (List (Nat × Option Int)))
    (fod fld fcmd : Task → String) (dry : Bool) (e0 : ExecState) : RunResult :=
  let e1 := runEntryStep e0
  let jm0 : JobManager := ⟨[], [], false⟩
  let successfulTasks :=
    (task_g.nodes.filterMap (lookupTask table0)).filter
      (fun t => decide (t.status = .successful))
  let task_queue := task_g.removeNodesFrom (successfulTasks.map Task.id)
  let seen0 := successfulTasks.filterMap Task.log_dir
  match assignDirs fod fld task_queue.nodes table0 seen0 with
  | .error _ => ⟨table0, task_queue, jm0, e1, [], [], [], none, .assertionError⟩
  | .ok table1 =>
    let table2 := assignCommands fcmd task_queue.nodes table1
    if dry then ⟨table2, task_queue, jm0, e1, [], [], [], none, .completed⟩
    else runLoopGo max_cpus schedule table2 task_queue jm0 e1

/-- A persisted task row as `Execution.start` sees it: resume filters rows by
the `successful` column (lines 124-129). -/
structure TaskRow where
  id : Nat
  successful : Bool
deriving DecidableEq, Repr

/-- A persisted execution row: the columns `Execution.start` reads or writes.
`id` is nullable until the store assigns it. -/
structure ExecRow where
  id : Option Nat
  name : String
  output_dir : String
  max_cpus : Option Nat
  tasks : List TaskRow
  successful : Bool := false
  status : ExecStatus := .no_attempt
deriving DecidableEq, Repr

/-- The transactional store plus the filesystem paths that exist
(`os.path.exists` / `mkdir` / `shutil.rmtree`). -/
structure Store where
  executions : List ExecRow
  existingPaths : List String
deriving DecidableEq, Repr

/-- session.query(Execution).filter_by(name=name).first(). -/
def findExec (s : Store) (name : String) : Option ExecRow :=
  s.executions.find? (fun r => decide (r.name = name))

/-- How `Execution.start` fails: a Python `assert` (AssertionError) or the
`raise SystemExit('Quitting')` of a declined restart confirmation. -/
inductive StartError
  | assertionError
  | systemExit
deriving DecidableEq, Repr

/-- Embeds `Execution.start` (Execution.py lines 83-140).  Parameters mirror
the Python signature; `confirmAnswer` stands for the interactive `confirm`
prompt's reply.  Line 98 asserts `output_dir is not None` before anything
else, so the resume branch's `if output_dir is None` (lines 117-118) is dead
code; it is kept here verbatim.  The restart branch (101-109) deletes the
stored execution and its output tree after confirmation, remembering the old
id; resume (114-129) reassigns max_cpus, asserts the caller's output_dir
equals the stored one (line 120) and deletes every task row with
`successful == false`; create (130-136) asserts the output_dir does not exist
yet, creates it, and inserts a fresh row reusing the old id.  The
`info['last_cmd_executed']` bookkeeping (line 138) touches no field modelled
here. -/
def startExec (s : Store) (name : String) (output_dir : Option String)
    (restart prompt_confirm : Bool) (max_cpus : Option Nat) (confirmAnswer : Bool) :
    Except StartError (Store × ExecRow) :=
  if output_dir = none then .error .assertionError
  else
    let afterRestart : Except StartError (Store × Option Nat) :=
      if restart then
        match findExec s name with
        | some ex =>
          if prompt_confirm ∧ confirmAnswer = false then .error .systemExit
          else
            .ok ({ executions := s.executions.filter (fun r => decide (r.name ≠ name)),
                   existingPaths := s.existingPaths.filter (fun p => decide (p ≠ ex.output_dir)) },
                 ex.id)
        | none => .ok (s, none)
      else .ok (s, none)
    match afterRestart with
    | .error err => .error err
    | .ok (s1, old_id) =>
      match findExec s1 name with
      | some ex =>
        let ex1 := { ex with max_cpus := max_cpus }
        match output_dir with
        | none =>
          -- dead branch (lines 117-118): reuse the stored output_dir
          let ex2 := { ex1 with tasks := ex1.tasks.filter (fun t => t.successful) }
          .ok ({ s1 with
                 executions := s1.executions.map (fun r => if r.name = name then ex2 else r) },
               ex2)
        | some od =>
          if ex.output_dir = od then
            let ex2 := { ex1 with tasks := ex1.tasks.filter (fun t => t.successful) }
            .ok ({ s1 with
                   executions := s1.executions.map (fun r => if r.name = name then ex2 else r) },
                 ex2)
          else .error .assertionError
      | none =>
        match output_dir with
        | none => .error .assertionError
        | some od =>
          if s1.existingPaths.contains od then .error .assertionError
          else
            let ex : ExecRow :=
              { id := old_id, name := name, output_dir := od, max_cpus := max_cpus, tasks := [] }
            .ok ({ executions := s1.executions ++ [ex],
                   existingPaths := od :: s1.existingPaths }, ex)

/-- The execution state of a freshly created Execution row (column defaults,
Execution.py lines 53-61). -/
def initExecState : ExecState := {}

/-- The execution states reachable through the operations that mutate an
execution's status and flags: creation with column defaults; the entry of
`run` (lines 179-184, taken as one operation); the clean-drain assignment
`self.status = ExecutionStatus.successful` (line 226); and `terminate`'s
`self.status = ExecutionStatus.killed` (line 246).  `terminate` is reached
either from the SIGINT handler, which is guarded by
`if not execution.successful` (lines 347-350), or from run's ExecutionFailed
handler (lines 230-232), which only runs after the entry step cleared
`successful` and before line 226 could set it; both call sites therefore
satisfy the `e.successful = false` guard. -/
inductive ReachableExec : ExecState → Prop
  | init : ReachableExec initExecState
  | entry (e : ExecState) : ReachableExec e → ReachableExec (runEntryStep e)
  | finish (e : ExecState) : ReachableExec e → ReachableExec (setExecStatus e .successful)
  | kill (e : ExecState) : ReachableExec e → e.successful = false →
      ReachableExec (setExecStatus e .killed)

/-! Concrete scenario fixtures used by the theorems below. -/

/-- C1 fixture: soft-failing task 11 with dependent task 12 (scenario S4). -/
def c1Table : List Task :=
  [{ id := 11, cpu_req := 1, must_succeed := false, NOOP := false },
   { id := 12, cpu_req := 1, must_succeed := true, NOOP := false }]

/-- C1 fixture: run of the two-task chain where 11 exits 1 and 12 exits 0. -/
def c1Run : RunResult :=
  runExec c1Table ⟨[11, 12], [(11, 12)]⟩ none [[(11, some 1)], [(12, some 0)]]
    (fun _ => "o") (fun t => Nat.repr t.id) (fun _ => "c") false {}

/-- C2 fixture: one task under a budget of 4, used to instantiate the
admission-invariant theorem. -/
def c2Table : List Task :=
  [{ id := 21, cpu_req := 2, must_succeed := true, NOOP := false }]

/-- C2 fixture: the corresponding run. -/
def c2Run : RunResult :=
  runExec c2Table ⟨[21], []⟩ (some 4) [[(21, some 0)]]
    (fun _ => "o") (fun t => Nat.repr t.id) (fun _ => "c") false {}

/-- C3 fixture: a single soft-failing task. -/
def c3Table : List Task :=
  [{ id := 31, cpu_req := 1, must_succeed := false, NOOP := false }]

/-- C3 fixture: run in which task 31 exits 1. -/
def c3Run : RunResult :=
  runExec c3Table ⟨[31], []⟩ none [[(31, some 1)]]
    (fun _ => "o") (fun t => Nat.repr t.id) (fun _ => "c") false {}

/-- C3 fixture: a successful single-task run for the amended theorem's
witness. -/
def c3OkRun : RunResult :=
  runExec [{ id := 32, cpu_req := 1, must_succeed := true, NOOP := false }]
    ⟨[32], []⟩ none [[(32, some 0)]]
    (fun _ => "o") (fun t => Nat.repr t.id) (fun _ => "c") false {}

/-- C4 fixture: a task table whose task 41 is in flight. -/
def c4Table : List Task :=
  [{ id := 41, cpu_req := 1, must_succeed := true, NOOP := false, status := .submitted }]

/-- C4 fixture: a JobManager whose completion queue already holds task 41
finished with exit status 0. -/
def c4JM : JobManager := ⟨[], [(41, some 0)], false⟩

/-- C4 fixture: the execution state of a running execution. -/
def c4Exec : ExecState := ⟨.running, false, false, true⟩

/-- C5 fixture: a must_succeed task that the DRM reports with exit status 3. -/
def c5Run : RunResult :=
  runExec [{ id := 51, cpu_req := 2, must_succeed := true, NOOP := false }]
    ⟨[51], []⟩ (some 4) [[(51, some 3)]]
    (fun _ => "o") (fun t => Nat.repr t.id) (fun _ => "c") false {}

/-- C6 fixture: a one-cpu task. -/
def c6Table : List Task :=
  [{ id := 61, cpu_req := 1, must_succeed := true, NOOP := false }]

/-- C7 fixture: a must_succeed failure (71) drained in the same batch as a
successful task (72). -/
def c7Table : List Task :=
  [{ id := 71, cpu_req := 1, must_succeed := true, NOOP := false },
   { id := 72, cpu_req := 1, must_succeed := false, NOOP := false }]

/-- C7 fixture: the run delivering both tasks of the batch at once, 71 with
exit 1, 72 with exit 0. -/
def c7Run : RunResult :=
  runExec c7Table ⟨[71, 72], []⟩ none [[(71, some 1), (72, some 0)]]
    (fun _ => "o") (fun t => Nat.repr t.id) (fun _ => "c") false {}

/-- C8 fixture: a store holding execution "w" with output_dir "d", one
successful task row and one failed task row. -/
def c8Store : Store :=
  ⟨[{ id := some 1, name := "w", output_dir := "d", max_cpus := none,
      tasks := [⟨1, true⟩, ⟨2, false⟩] }], ["d"]⟩

/-- C9 fixture: the state of a successfully finished execution after `run` is
entered again (a resume): entry, clean finish, entry. -/
def c9Bad : ExecState := runEntryStep (setExecStatus (runEntryStep initExecState) .successful)

/-- C7 fixture for the amended theorem's witness: one submitted task. -/
def c7aTable : List Task :=
  [{ id := 81, cpu_req := 1, must_succeed := true, NOOP := false, status := .submitted }]

/-- C7 fixture for the amended theorem's witness: the batch reporting task 81
finished with exit status 0. -/
def c7aBatch : List (Nat × Option Int) := [(81, some 0)]

/-- C8 fixture: the task rows of c8Store's execution after a resume keeps only
the successful row. -/
def c8Row : ExecRow :=
  { id := some 1, name := "w", output_dir := "d", max_cpus := none,
    tasks := [⟨1, true⟩, ⟨2, false⟩] }

/-- C10 fixture: a dry run over two tasks. -/
def c10Run : RunResult :=
  runExec [{ id := 1, cpu_req := 1, must_succeed := true, NOOP := false },
           { id := 2, cpu_req := 1, must_succeed := true, NOOP := true }]
    ⟨[1, 2], [(1, 2)]⟩ (some 8) [[(1, some 0)], [(2, none)]]
    (fun _ => "o") (fun t => Nat.repr t.id) (fun _ => "c") true {}

/-! Helper lemmas about the table, the JobManager model and the phases. -/

theorem lookupTask_updateTask (tb : List Task) (i j : Nat) (f : Task → Task)
    (hf : ∀ u, (f u).id = u.id) :
    lookupTask (updateTask tb i f) j =
      if j = i then (lookupTask tb i).map f else lookupTask tb j := by
  induction tb with
  | nil => by_cases hj : j = i <;> simp [lookupTask, updateTask, hj]
  | cons u rest ih =>
    by_cases hu : u.id = i
    · by_cases hj : j = i
      · have h1 : lookupTask (updateTask (u :: rest) i f) j = some (f u) := by
          simp only [updateTask, List.map_cons, if_pos hu, lookupTask]
          exact List.find?_cons_of_pos _ (by simp [hf, hu, hj])
        have h2 : lookupTask (u :: rest) i = some u := by
          simp only [lookupTask]
          exact List.find?_cons_of_pos _ (by simp [hu])
        rw [h1, if_pos hj, h2]; rfl
      · have h1 : lookupTask (updateTask (u :: rest) i f) j =
            lookupTask (updateTask rest i f) j := by
          simp only [updateTask, List.map_cons, if_pos hu, lookupTask]
          exact List.find?_cons_of_neg _
            (by simp only [hf, hu, decide_eq_true_eq]; exact fun h => hj h.symm)
        have h2 : lookupTask (u :: rest) j = lookupTask rest j := by
          simp only [lookupTask]
          exact List.find?_cons_of_neg _
            (by simp only [hu, decide_eq_true_eq]; exact fun h => hj h.symm)
        rw [h1, ih]
        simp only [if_neg hj]
        rw [h2]
    · by_cases hv : u.id = j
      · have hj : ¬ j = i := fun h => hu (by rw [← h, hv])
        have h1 : lookupTask (updateTask (u :: rest) i f) j = some u := by
          simp only [updateTask, List.map_cons, if_neg hu, lookupTask]
          exact List.find?_cons_of_pos _ (by simp [hv])
        have h2 : lookupTask (u :: rest) j = some u := by
          simp only [lookupTask]
          exact List.find?_cons_of_pos _ (by simp [hv])
        rw [h1, if_neg hj, h2]
      · have h1 : lookupTask (updateTask (u :: rest) i f) j =
            lookupTask (updateTask rest i f) j := by
          simp only [updateTask, List.map_cons, if_neg hu, lookupTask]
          exact List.find?_cons_of_neg _ (by simp [hv])
        have h2 : lookupTask (u :: rest) j = lookupTask rest j := by
          simp only [lookupTask]
          exact List.find?_cons_of_neg _ (by simp [hv])
        by_cases hj : j = i
        · have h3 : lookupTask (u :: rest) i = lookupTask rest i := by
            simp only [lookupTask]
            exact List.find?_cons_of_neg _ (by simp [hu])
          rw [h1, ih]
          simp only [if_pos hj]
          rw [h3]
        · rw [h1, ih]
          simp only [if_neg hj]
          rw [h2]

theorem lookupTask_updateTask_self (tb : List Task) (i : Nat) (f : Task → Task) (t : Task)
    (hf : ∀ u, (f u).id = u.id) (h : lookupTask tb i = some t) :
    lookupTask (updateTask tb i f) i = some (f t) := by
  rw [lookupTask_updateTask tb i i f hf, if_pos rfl, h]; rfl

theorem statusOf_updateTask_self (tb : List Task) (i : Nat) (f : Task → Task) (t : Task)
    (hf : ∀ u, (f u).id = u.id) (h : lookupTask tb i = some t) :
    statusOf (updateTask tb i f) i = (f t).status := by
  rw [statusOf, lookupTask_updateTask_self tb i f t hf h]; rfl

theorem statusOf_updateTask_ne (tb : List Task) (i j : Nat) (f : Task → Task)
    (hf : ∀ u, (f u).id = u.id) (h : j ≠ i) :
    statusOf (updateTask tb i f) j = statusOf tb j := by
  rw [statusOf, lookupTask_updateTask tb i j f hf, if_neg h]; rfl

theorem cpuOf_updateTask (tb : List Task) (i j : Nat) (f : Task → Task)
    (hf : ∀ u, (f u).id = u.id) (hc : ∀ u, (f u).cpu_req = u.cpu_req) :
    cpuOf (updateTask tb i f) j = cpuOf tb j := by
  rw [cpuOf, lookupTask_updateTask tb i j f hf]
  by_cases hj : j = i
  · subst hj; cases h : lookupTask tb j <;> simp [cpuOf, h, hc]
  · simp [cpuOf, hj]

theorem coresUsed_congr (tb tb' : List Task) (r : List Nat)
    (h : ∀ j, cpuOf tb' j = cpuOf tb j) : coresUsed tb' r = coresUsed tb r := by
  unfold coresUsed
  exact congrArg List.sum (List.map_congr_left (fun j _ => h j))

theorem coresUsed_append (tb : List Task) (r : List Nat) (i : Nat) :
    coresUsed tb (r ++ [i]) = coresUsed tb r + cpuOf tb i := by
  simp [coresUsed]

theorem sum_map_filter_le (f : Nat → Nat) (p : Nat → Bool) (l : List Nat) :
    ((l.filter p).map f).sum ≤ (l.map f).sum := by
  induction l with
  | nil => simp
  | cons a rest ih =>
    by_cases hp : p a
    · simpa [List.filter_cons, hp] using Nat.add_le_add_left ih (f a)
    · simp only [List.filter_cons, hp, Bool.false_eq_true, if_false, List.map_cons, List.sum_cons]
      exact Nat.le_trans ih (Nat.le_add_left _ _)

theorem readyTasks_lookup (tb : List Task) (g : Graph) (c : Task)
    (h : c ∈ readyTasks tb g) : lookupTask tb c.id = some c := by
  have hm : c ∈ g.nodes.filterMap (lookupTask tb) := List.mem_of_mem_filter h
  rcases List.mem_filterMap.mp hm with ⟨n, _, hn⟩
  have hid : c.id = n := by
    have := List.find?_some hn
    simpa using this
  rw [hid]
  exact hn

theorem sortedReadyTasks_lookup (tb : List Task) (g : Graph) (c : Task)
    (h : c ∈ sortedReadyTasks tb g) : lookupTask tb c.id = some c :=
  readyTasks_lookup tb g c ((List.perm_insertionSort cpuLE (readyTasks tb g)).mem_iff.mp h)

theorem sweepGo_fq (mc : Option Nat) (cands : List Task) (tb : List Task) (jm : JobManager) :
    (sweepGo mc cands tb jm).jm.finishedQueue = jm.finishedQueue := by
  induction cands generalizing tb jm with
  | nil => rfl
  | cons c rest ih =>
    simp only [sweepGo]
    split
    · rfl
    · exact ih _ _

theorem sweepGo_cpuOf (mc : Option Nat) (cands : List Task) (tb : List Task) (jm : JobManager)
    (j : Nat) : cpuOf (sweepGo mc cands tb jm).table j = cpuOf tb j := by
  induction cands generalizing tb jm with
  | nil => rfl
  | cons c rest ih =>
    simp only [sweepGo]
    split
    · rfl
    · rw [ih]
      exact cpuOf_updateTask tb c.id j _ (fun u => rfl) (fun u => rfl)

theorem sweepGo_submitted_take (mc : Option Nat) (cands : List Task) (tb : List Task)
    (jm : JobManager) : ∃ k, (sweepGo mc cands tb jm).submitted = cands.take k := by
  induction cands generalizing tb jm with
  | nil => exact ⟨0, rfl⟩
  | cons c rest ih =>
    simp only [sweepGo]
    split
    · exact ⟨0, rfl⟩
    · rcases ih (updateTask tb c.id (fun u => { finalizeOutputFiles u with status := .submitted }))
        (jm.submit c.id) with ⟨k, hk⟩
      exact ⟨k + 1, by simp [hk]⟩

theorem sweepGo_loads (m : Nat) (cands : List Task) (tb : List Task) (jm : JobManager)
    (hb : coresUsed tb jm.running ≤ m)
    (hcq : ∀ c ∈ cands, cpuOf tb c.id = c.cpu_req) :
    (∀ l ∈ (sweepGo (some m) cands tb jm).loads, l ≤ m) ∧
    coresUsed (sweepGo (some m) cands tb jm).table
      (sweepGo (some m) cands tb jm).jm.running ≤ m := by
  induction cands generalizing tb jm with
  | nil => exact ⟨fun l hl => absurd hl (List.not_mem_nil l), hb⟩
  | cons c rest ih =>
    simp only [sweepGo]
    split
    · exact ⟨fun l hl => absurd hl (List.not_mem_nil l), hb⟩
    · rename_i hstop
      have hguard : c.cpu_req + coresUsed tb jm.running ≤ m := by
        by_contra hgt
        exact hstop (by simp [Nat.lt_of_not_le hgt])
      have hpre : ∀ u : Task,
          ({ finalizeOutputFiles u with status := TaskStatus.submitted } : Task).id = u.id :=
        fun u => rfl
      have hprc : ∀ u : Task,
          ({ finalizeOutputFiles u with status := TaskStatus.submitted } : Task).cpu_req
            = u.cpu_req := fun u => rfl
      have hcpu : ∀ j, cpuOf (updateTask tb c.id
          (fun u => { finalizeOutputFiles u with status := .submitted })) j = cpuOf tb j :=
        fun j => cpuOf_updateTask tb c.id j _ hpre hprc
      have hload : coresUsed
          (updateTask tb c.id (fun u => { finalizeOutputFiles u with status := .submitted }))
          (jm.submit c.id).running = coresUsed tb jm.running + c.cpu_req := by
        show coresUsed _ (jm.running ++ [c.id]) = _
        rw [coresUsed_append, coresUsed_congr tb _ _ hcpu, hcpu c.id,
          hcq c (List.mem_cons_self c rest)]
      have hb' : coresUsed
          (updateTask tb c.id (fun u => { finalizeOutputFiles u with status := .submitted }))
          (jm.submit c.id).running ≤ m := by
        rw [hload]; omega
      have hcq' : ∀ c' ∈ rest, cpuOf (updateTask tb c.id
          (fun u => { finalizeOutputFiles u with status := .submitted })) c'.id = c'.cpu_req :=
        fun c' hc' => by rw [hcpu c'.id]; exact hcq c' (List.mem_cons_of_mem c hc')
      rcases ih _ _ hb' hcq' with ⟨ihl, ihb⟩
      refine ⟨?_, ihb⟩
      intro l hl
      rcases List.mem_cons.mp hl with hl | hl
      · rw [hl, hload]; omega
      · exact ihl l hl

theorem drmDeliver_running_subset (rep : List (Nat × Option Int)) (jm : JobManager) (j : Nat)
    (h : j ∈ (drmDeliver jm rep).running) : j ∈ jm.running := by
  induction rep generalizing jm with
  | nil => exact h
  | cons p rest ih =>
    rw [drmDeliver] at h
    by_cases hc : jm.running.contains p.1
    · rw [if_pos hc] at h
      exact List.mem_of_mem_filter (ih _ h)
    · rw [if_neg hc] at h
      exact ih _ h

theorem drmDeliver_coresUsed (tb : List Task) (rep : List (Nat × Option Int))
    (jm : JobManager) : coresUsed tb (drmDeliver jm rep).running ≤ coresUsed tb jm.running := by
  induction rep generalizing jm with
  | nil => exact Nat.le_refl _
  | cons p rest ih =>
    rw [drmDeliver]
    by_cases hc : jm.running.contains p.1
    · rw [if_pos hc]
      exact Nat.le_trans (ih _) (sum_map_filter_le (cpuOf tb) _ jm.running)
    · rw [if_neg hc]
      exact ih _

theorem drmDeliver_fq_mem (rep : List (Nat × Option Int)) (jm : JobManager)
    (p : Nat × Option Int) (h : p ∈ (drmDeliver jm rep).finishedQueue) :
    p ∈ jm.finishedQueue ∨ p.1 ∈ jm.running := by
  induction rep generalizing jm with
  | nil => exact Or.inl h
  | cons q rest ih =>
    rw [drmDeliver] at h
    by_cases hc : jm.running.contains q.1
    · rw [if_pos hc] at h
      rcases ih _ h with hin | hin
      · rcases List.mem_append.mp hin with hin | hin
        · exact Or.inl hin
        · right
          rcases List.mem_singleton.mp hin
          exact List.mem_of_elem_eq_true hc
      · exact Or.inr (List.mem_of_mem_filter hin)
    · rw [if_neg hc] at h
      exact ih _ h

theorem drmDeliver_fq_inv (rep : List (Nat × Option Int)) (jm : JobManager)
    (h1 : (jm.finishedQueue.map Prod.fst).Nodup)
    (h2 : ∀ p ∈ jm.finishedQueue, p.1 ∉ jm.running) :
    ((drmDeliver jm rep).finishedQueue.map Prod.fst).Nodup ∧
    ∀ p ∈ (drmDeliver jm rep).finishedQueue, p.1 ∉ (drmDeliver jm rep).running := by
  induction rep generalizing jm with
  | nil => exact ⟨h1, h2⟩
  | cons q rest ih =>
    rw [drmDeliver]
    by_cases hc : jm.running.contains q.1
    · rw [if_pos hc]
      refine ih _ ?_ ?_
      · rw [List.map_append]
        refine List.Nodup.append h1 (List.nodup_singleton _) ?_
        intro a ha hb
        rcases List.mem_map.mp ha with ⟨p, hp, hpa⟩
        rcases List.mem_singleton.mp (by simpa using hb)
        exact h2 p hp (hpa ▸ List.mem_of_elem_eq_true hc)
      · intro p hp
        rcases List.mem_append.mp hp with hp | hp
        · exact fun hmem => h2 p hp (List.mem_of_mem_filter hmem)
        · cases List.mem_singleton.mp hp
          intro hmem
          have := List.of_mem_filter hmem
          simp at this
    · rw [if_neg hc]
      exact ih _ h1 h2

theorem processFinishedLoop_statusOf_ne (fin : List (Nat × Option Int)) (tb : List Task)
    (q : Graph) (j : Nat) (hj : j ∉ fin.map Prod.fst) :
    statusOf (processFinishedLoop fin tb q).table j = statusOf tb j := by
  induction fin generalizing tb q with
  | nil => rfl
  | cons p rest ih =>
    have hji : j ≠ p.1 := fun h => hj (by simp [h])
    have hjr : j ∉ rest.map Prod.fst := fun h => hj (by simp [h])
    rcases p with ⟨i, ex⟩
    rw [processFinishedLoop]
    split
    · exact ih tb q hjr
    · rename_i t hl
      by_cases hs : ex = some 0 ∨ t.NOOP
      · rw [if_pos hs]
        show statusOf (processFinishedLoop rest _ _).table j = _
        rw [ih _ _ hjr]
        exact statusOf_updateTask_ne tb i j _ (fun u => rfl) hji
      · rw [if_neg hs]
        by_cases hm : t.must_succeed = false
        · rw [if_pos hm]
          show statusOf (processFinishedLoop rest _ _).table j = _
          rw [ih _ _ hjr]
          exact statusOf_updateTask_ne tb i j _ (fun u => rfl) hji
        · rw [if_neg hm]
          exact statusOf_updateTask_ne tb i j _ (fun u => rfl) hji

theorem processFinishedLoop_cpuOf (fin : List (Nat × Option Int)) (tb : List Task)
    (q : Graph) (j : Nat) :
    cpuOf (processFinishedLoop fin tb q).table j = cpuOf tb j := by
  induction fin generalizing tb q with
  | nil => rfl
  | cons p rest ih =>
    rcases p with ⟨i, ex⟩
    rw [processFinishedLoop]
    split
    · exact ih tb q
    · rename_i t hl
      by_cases hs : ex = some 0 ∨ t.NOOP
      · rw [if_pos hs]
        show cpuOf (processFinishedLoop rest _ _).table j = _
        rw [ih]
        exact cpuOf_updateTask tb i j _ (fun u => rfl) (fun u => rfl)
      · rw [if_neg hs]
        by_cases hm : t.must_succeed = false
        · rw [if_pos hm]
          show cpuOf (processFinishedLoop rest _ _).table j = _
          rw [ih]
          exact cpuOf_updateTask tb i j _ (fun u => rfl) (fun u => rfl)
        · rw [if_neg hm]
          exact cpuOf_updateTask tb i j _ (fun u => rfl) (fun u => rfl)

theorem execStatusChanged_status (e : ExecState) :
    (execStatusChanged e).status = e.status := by
  unfold execStatusChanged
  dsimp only
  split <;> split <;> rfl

theorem setExecStatus_status (e : ExecState) (v : ExecStatus) :
    (setExecStatus e v).status = v := by
  unfold setExecStatus
  split
  · rename_i h; exact h
  · rw [execStatusChanged_status]

theorem sweepGo_running_status (mc : Option Nat) (cands : List Task) (tb : List Task)
    (jm : JobManager)
    (hr : ∀ j ∈ jm.running, statusOf tb j = .submitted)
    (hc : ∀ c ∈ cands, (lookupTask tb c.id).isSome) :
    ∀ j ∈ (sweepGo mc cands tb jm).jm.running,
      statusOf (sweepGo mc cands tb jm).table j = .submitted := by
  induction cands generalizing tb jm with
  | nil => exact hr
  | cons c rest ih =>
    simp only [sweepGo]
    split
    · exact hr
    · have hsome : (lookupTask tb c.id).isSome := hc c (List.mem_cons_self c rest)
      rcases Option.isSome_iff_exists.mp hsome with ⟨t, ht⟩
      have hself : statusOf (updateTask tb c.id
          (fun u => { finalizeOutputFiles u with status := .submitted })) c.id = .submitted :=
        Eq.trans (statusOf_updateTask_self tb c.id _ t (fun u => rfl) ht) rfl
      have hr' : ∀ j ∈ (jm.submit c.id).running,
          statusOf (updateTask tb c.id
            (fun u => { finalizeOutputFiles u with status := .submitted })) j = .submitted := by
        intro j hj
        rcases List.mem_append.mp hj with hj | hj
        · by_cases hji : j = c.id
          · rw [hji]; exact hself
          · exact Eq.trans (statusOf_updateTask_ne tb c.id j _ (fun u => rfl) hji) (hr j hj)
        · rcases List.mem_singleton.mp hj
          exact hself
      have hc' : ∀ c' ∈ rest, (lookupTask (updateTask tb c.id
          (fun u => { finalizeOutputFiles u with status := .submitted })) c'.id).isSome := by
        intro c' hm
        rw [lookupTask_updateTask tb c.id c'.id
          (fun u => { finalizeOutputFiles u with status := .submitted }) (fun u => rfl)]
        by_cases h : c'.id = c.id
        · rw [if_pos h, ht]; rfl
        · rw [if_neg h]; exact hc c' (List.mem_cons_of_mem c hm)
      exact ih _ _ hr' hc'

theorem processFinishedLoop_removals (fin : List (Nat × Option Int)) (tb : List Task) (q : Graph)
    (hnd : (fin.map Prod.fst).Nodup)
    (hsub : ∀ p ∈ fin, statusOf tb p.1 = .submitted) :
    ∀ x ∈ (processFinishedLoop fin tb q).removals,
      (x.2.1 = TaskStatus.successful ∧ x.2.2 = TaskStatus.successful) ∨
      (x.2.1 = TaskStatus.submitted ∧ x.2.2 = TaskStatus.failed) := by
  induction fin generalizing tb q with
  | nil => intro x hx; exact absurd hx (List.not_mem_nil x)
  | cons p rest ih =>
    obtain ⟨i, ex⟩ := p
    have hnd' : (rest.map Prod.fst).Nodup := (List.nodup_cons.mp hnd).2
    have hni : i ∉ rest.map Prod.fst := (List.nodup_cons.mp hnd).1
    rw [processFinishedLoop]
    split
    · exact ih tb q hnd' (fun p hp => hsub p (List.mem_cons_of_mem _ hp))
    · rename_i t hl
      by_cases hs : ex = some 0 ∨ t.NOOP
      · rw [if_pos hs]
        intro x hx
        have hat : statusOf (updateTask tb i
            (fun u => { u with status := TaskStatus.successful })) i = TaskStatus.successful :=
          statusOf_updateTask_self tb i _ t (fun u => rfl) hl
        rcases List.mem_cons.mp hx with hx | hx
        · left; rw [hx]; exact ⟨hat, hat⟩
        · refine ih _ _ hnd' ?_ x hx
          intro p hp
          have hpne : p.1 ≠ i := fun h => hni (h ▸ List.mem_map_of_mem Prod.fst hp)
          exact Eq.trans (statusOf_updateTask_ne tb i p.1 _ (fun u => rfl) hpne)
            (hsub p (List.mem_cons_of_mem _ hp))
      · rw [if_neg hs]
        by_cases hm : t.must_succeed = false
        · rw [if_pos hm]
          intro x hx
          have hat : statusOf tb i = TaskStatus.submitted := hsub (i, ex) (List.mem_cons_self _ _)
          have haft : statusOf (updateTask tb i
              (fun u => { u with status := TaskStatus.failed })) i = TaskStatus.failed :=
            statusOf_updateTask_self tb i _ t (fun u => rfl) hl
          rcases List.mem_cons.mp hx with hx | hx
          · right; rw [hx]; exact ⟨hat, haft⟩
          · refine ih _ _ hnd' ?_ x hx
            intro p hp
            have hpne : p.1 ≠ i := fun h => hni (h ▸ List.mem_map_of_mem Prod.fst hp)
            exact Eq.trans (statusOf_updateTask_ne tb i p.1 _ (fun u => rfl) hpne)
              (hsub p (List.mem_cons_of_mem _ hp))
        · rw [if_neg hm]
          intro x hx
          exact absurd hx (List.not_mem_nil x)

theorem processFinishedLoop_abort (fin : List (Nat × Option Int)) (tb : List Task) (q : Graph)
    (i : Nat) (h : (processFinishedLoop fin tb q).aborted = some i) :
    ∃ t, lookupTask (processFinishedLoop fin tb q).table i = some t ∧
      t.must_succeed = true ∧ t.status = .failed := by
  induction fin generalizing tb q with
  | nil => simp [processFinishedLoop] at h
  | cons p rest ih =>
    obtain ⟨j, ex⟩ := p
    cases hl : lookupTask tb j with
    | none =>
      rw [processFinishedLoop] at h ⊢
      rw [hl] at h ⊢
      exact ih _ _ h
    | some t =>
      rw [processFinishedLoop] at h ⊢
      rw [hl] at h ⊢
      by_cases hs : ex = some 0 ∨ t.NOOP
      · simp only [if_pos hs] at h ⊢
        exact ih _ _ h
      · simp only [if_neg hs] at h ⊢
        by_cases hm : t.must_succeed = false
        · simp only [if_pos hm] at h ⊢
          exact ih _ _ h
        · simp only [if_neg hm] at h ⊢
          obtain rfl : j = i := by simpa using h
          have hms : t.must_succeed = true := by
            revert hm; cases t.must_succeed <;> simp
          exact ⟨{ t with status := TaskStatus.failed },
            lookupTask_updateTask_self tb j _ t (fun u => rfl) hl, hms, rfl⟩

theorem runLoopGo_nil (mc : Option Nat) (tb : List Task) (q : Graph) (jm : JobManager)
    (e : ExecState) :
    runLoopGo mc [] tb q jm e =
      if q.nodes = [] then ⟨tb, q, jm, setExecStatus e .successful, [], [], [], none, .completed⟩
      else ⟨tb, q, jm, e, [], [], [], none, .blocked⟩ := rfl

theorem runLoopGo_cons (mc : Option Nat) (rep : List (Nat × Option Int))
    (rest : List (List (Nat × Option Int))) (tb : List Task) (q : Graph) (jm : JobManager)
    (e : ExecState) :
    runLoopGo mc (rep :: rest) tb q jm e =
      if q.nodes = [] then ⟨tb, q, jm, setExecStatus e .successful, [], [], [], none, .completed⟩
      else
        let sw := runReadyTasks tb q jm mc
        let jm1 := drmDeliver sw.jm rep
        let fin := getFinishedTasks jm1
        if fin.1 = [] then
          ⟨sw.table, q, fin.2, e, sw.submitted.map Task.id, sw.loads, [], none, .blocked⟩
        else
          let pr := processFinishedLoop fin.1 sw.table q
          match pr.aborted with
          | some i =>
            let tr := terminateExec pr.table e (some fin.2)
            ⟨tr.1, pr.queue, (tr.2.2).getD fin.2, tr.2.1,
              sw.submitted.map Task.id, sw.loads, pr.removals, some i, .executionFailed⟩
          | none =>
            let r := runLoopGo mc rest pr.table pr.queue fin.2 e
            ⟨r.table, r.queue, r.jm, r.exec,
              sw.submitted.map Task.id ++ r.submissions, sw.loads ++ r.loads,
              pr.removals ++ r.removals, r.aborted, r.outcome⟩ := rfl

theorem runLoopGo_abort (mc : Option Nat) (sched : List (List (Nat × Option Int))) :
    ∀ (tb : List Task) (q : Graph) (jm : JobManager) (e : ExecState) (i : Nat),
    (runLoopGo mc sched tb q jm e).aborted = some i →
    (runLoopGo mc sched tb q jm e).outcome = .executionFailed ∧
    (runLoopGo mc sched tb q jm e).exec.status = .killed ∧
    (runLoopGo mc sched tb q jm e).jm.terminated = true ∧
    ∃ t, lookupTask (runLoopGo mc sched tb q jm e).table i = some t ∧
      t.must_succeed = true ∧ t.status = .failed := by
  induction sched with
  | nil =>
    intro tb q jm e i h
    rw [runLoopGo_nil] at h
    by_cases hq : q.nodes = []
    · simp only [if_pos hq] at h; exact absurd h (by simp)
    · simp only [if_neg hq] at h; exact absurd h (by simp)
  | cons rep rest ih =>
    intro tb q jm e i h
    simp only [runLoopGo_cons] at h ⊢
    by_cases hq : q.nodes = []
    · simp only [if_pos hq] at h; exact absurd h (by simp)
    · simp only [if_neg hq] at h ⊢
      by_cases hf : (getFinishedTasks (drmDeliver (runReadyTasks tb q jm mc).jm rep)).1 = []
      · simp only [if_pos hf] at h; exact absurd h (by simp)
      · simp only [if_neg hf] at h ⊢
        cases hpa : (processFinishedLoop
            (getFinishedTasks (drmDeliver (runReadyTasks tb q jm mc).jm rep)).1
            (runReadyTasks tb q jm mc).table q).aborted with
        | none =>
          simp only [hpa] at h ⊢
          exact ih _ _ _ _ i h
        | some i0 =>
          simp only [hpa] at h ⊢
          obtain rfl : i0 = i := by simpa using h
          refine ⟨trivial, setExecStatus_status e .killed, rfl, ?_⟩
          exact processFinishedLoop_abort _ _ _ i0 hpa

theorem runLoopGo_loads (m : Nat) (sched : List (List (Nat × Option Int))) :
    ∀ (tb : List Task) (q : Graph) (jm : JobManager) (e : ExecState),
    coresUsed tb jm.running ≤ m →
    ∀ l ∈ (runLoopGo (some m) sched tb q jm e).loads, l ≤ m := by
  induction sched with
  | nil =>
    intro tb q jm e hb l hl
    rw [runLoopGo_nil] at hl
    by_cases hq : q.nodes = []
    · simp only [if_pos hq] at hl; exact absurd hl (List.not_mem_nil l)
    · simp only [if_neg hq] at hl; exact absurd hl (List.not_mem_nil l)
  | cons rep rest ih =>
    intro tb q jm e hb l hl
    simp only [runLoopGo_cons] at hl
    by_cases hq : q.nodes = []
    · simp only [if_pos hq] at hl; exact absurd hl (List.not_mem_nil l)
    · simp only [if_neg hq] at hl
      have hcq : ∀ c ∈ sortedReadyTasks tb q, cpuOf tb c.id = c.cpu_req := by
        intro c hc
        rw [cpuOf, sortedReadyTasks_lookup tb q c hc]; rfl
      have hsw := sweepGo_loads m (sortedReadyTasks tb q) tb jm hb hcq
      by_cases hf :
        (getFinishedTasks (drmDeliver (runReadyTasks tb q jm (some m)).jm rep)).1 = []
      · simp only [if_pos hf] at hl
        exact hsw.1 l hl
      · simp only [if_neg hf] at hl
        cases hpa : (processFinishedLoop
            (getFinishedTasks (drmDeliver (runReadyTasks tb q jm (some m)).jm rep)).1
            (runReadyTasks tb q jm (some m)).table q).aborted with
        | some i0 =>
          simp only [hpa] at hl
          exact hsw.1 l hl
        | none =>
          simp only [hpa] at hl
          rcases List.mem_append.mp hl with hl | hl
          · exact hsw.1 l hl
          · refine ih _ _ _ _ ?_ l hl
            have h1 : coresUsed (runReadyTasks tb q jm (some m)).table
                (drmDeliver (runReadyTasks tb q jm (some m)).jm rep).running ≤ m :=
              Nat.le_trans (drmDeliver_coresUsed _ rep _) hsw.2
            have h2 : ∀ j, cpuOf (processFinishedLoop
                (getFinishedTasks (drmDeliver (runReadyTasks tb q jm (some m)).jm rep)).1
                (runReadyTasks tb q jm (some m)).table q).table j
                  = cpuOf (runReadyTasks tb q jm (some m)).table j :=
              processFinishedLoop_cpuOf _ _ _
            exact Nat.le_trans
              (Nat.le_of_eq (coresUsed_congr (runReadyTasks tb q jm (some m)).table _ _ h2)) h1

theorem runLoopGo_removals (mc : Option Nat) (sched : List (List (Nat × Option Int))) :
    ∀ (tb : List Task) (q : Graph) (jm : JobManager) (e : ExecState),
    (∀ j ∈ jm.running, statusOf tb j = .submitted) →
    jm.finishedQueue = [] →
    ∀ x ∈ (runLoopGo mc sched tb q jm e).removals,
      (x.2.1 = TaskStatus.successful ∧ x.2.2 = TaskStatus.successful) ∨
      (x.2.1 = TaskStatus.submitted ∧ x.2.2 = TaskStatus.failed) := by
  induction sched with
  | nil =>
    intro tb q jm e hr hfq x hx
    rw [runLoopGo_nil] at hx
    by_cases hq : q.nodes = []
    · simp only [if_pos hq] at hx; exact absurd hx (List.not_mem_nil x)
    · simp only [if_neg hq] at hx; exact absurd hx (List.not_mem_nil x)
  | cons rep rest ih =>
    intro tb q jm e hr hfq x hx
    simp only [runLoopGo_cons] at hx
    by_cases hq : q.nodes = []
    · simp only [if_pos hq] at hx; exact absurd hx (List.not_mem_nil x)
    · simp only [if_neg hq] at hx
      have hc : ∀ c ∈ sortedReadyTasks tb q, (lookupTask tb c.id).isSome := by
        intro c hcm
        rw [sortedReadyTasks_lookup tb q c hcm]; rfl
      have hrs := sweepGo_running_status mc (sortedReadyTasks tb q) tb jm hr hc
      have hswfq : (runReadyTasks tb q jm mc).jm.finishedQueue = [] :=
        (sweepGo_fq mc (sortedReadyTasks tb q) tb jm).trans hfq
      have hdinv := drmDeliver_fq_inv rep (runReadyTasks tb q jm mc).jm
        (by rw [hswfq]; exact List.nodup_nil)
        (by rw [hswfq]; intro p hp; exact absurd hp (List.not_mem_nil p))
      have hsub : ∀ p ∈ (drmDeliver (runReadyTasks tb q jm mc).jm rep).finishedQueue,
          statusOf (runReadyTasks tb q jm mc).table p.1 = .submitted := by
        intro p hp
        rcases drmDeliver_fq_mem rep (runReadyTasks tb q jm mc).jm p hp with hin | hin
        · rw [hswfq] at hin; exact absurd hin (List.not_mem_nil p)
        · exact hrs p.1 hin
      by_cases hf :
        (getFinishedTasks (drmDeliver (runReadyTasks tb q jm mc).jm rep)).1 = []
      · simp only [if_pos hf] at hx; exact absurd hx (List.not_mem_nil x)
      · simp only [if_neg hf] at hx
        cases hpa : (processFinishedLoop
            (getFinishedTasks (drmDeliver (runReadyTasks tb q jm mc).jm rep)).1
            (runReadyTasks tb q jm mc).table q).aborted with
        | some i0 =>
          simp only [hpa] at hx
          exact processFinishedLoop_removals _ _ _ hdinv.1 hsub x hx
        | none =>
          simp only [hpa] at hx
          rcases List.mem_append.mp hx with hx | hx
          · exact processFinishedLoop_removals _ _ _ hdinv.1 hsub x hx
          · refine ih _ _ _ _ ?_ rfl x hx
            intro j hj
            have hnotfin :
                j ∉ ((getFinishedTasks (drmDeliver (runReadyTasks tb q jm mc).jm rep)).1).map
                  Prod.fst := by
              intro hmem
              rcases List.mem_map.mp hmem with ⟨p, hp, hpj⟩
              exact hdinv.2 p hp (hpj ▸ hj)
            rw [processFinishedLoop_statusOf_ne _ _ _ j hnotfin]
            exact hrs j (drmDeliver_running_subset rep _ j hj)

theorem runExec_cases (table0 : List Task) (g : Graph) (mc : Option Nat)
    (sched : List (List (Nat × Option Int))) (fod fld fcmd : Task → String) (dry : Bool)
    (e0 : ExecState) :
    (∃ tq, runExec table0 g mc sched fod fld fcmd dry e0 =
      ⟨table0, tq, ⟨[], [], false⟩, runEntryStep e0, [], [], [], none, .assertionError⟩) ∨
    (∃ tb tq, dry = true ∧ runExec table0 g mc sched fod fld fcmd dry e0 =
      ⟨tb, tq, ⟨[], [], false⟩, runEntryStep e0, [], [], [], none, .completed⟩) ∨
    (∃ tb tq, dry = false ∧ runExec table0 g mc sched fod fld fcmd dry e0 =
      runLoopGo mc sched tb tq ⟨[], [], false⟩ (runEntryStep e0)) := by
  simp only [runExec]
  split
  · exact Or.inl ⟨_, rfl⟩
  · cases dry with
    | true => exact Or.inr (Or.inl ⟨_, _, rfl, rfl⟩)
    | false => exact Or.inr (Or.inr ⟨_, _, rfl, rfl⟩)

/-- C1: in a run where the task with must_succeed == false (task 11) finishes
with a non-zero exit status, the task is marked failed and removed, the loop
continues and drains the dependent task 12 — but, contrary to the claim, the
execution's terminal status is `successful`, not `failed`: line 226 assigns
`ExecutionStatus.successful` unconditionally once the queue is empty. -/
theorem soft_failure_run_ends_successful :
    statusOf c1Run.table 11 = .failed ∧
    (11, TaskStatus.submitted, TaskStatus.failed) ∈ c1Run.removals ∧
    (12, TaskStatus.successful, TaskStatus.successful) ∈ c1Run.removals ∧
    c1Run.queue.nodes = [] ∧
    c1Run.outcome = .completed ∧
    c1Run.exec.status = .successful ∧
    c1Run.exec.successful = true := by decide

/-- C3 counterexample: the soft-failing task 31 is removed from the graph
while its status is still `submitted`: the generator yields it before
executing `task.status = TaskStatus.failed`, so at the moment of
`remove_node` its status is not terminal. -/
theorem removal_while_status_submitted :
    (31, TaskStatus.submitted, TaskStatus.failed) ∈ c3Run.removals ∧
    ¬(TaskStatus.submitted = TaskStatus.successful ∨
      TaskStatus.submitted = TaskStatus.failed) := by decide

/-- C4: terminate() on an execution whose JobManager has a finished task
(41, exit 0) waiting in the completion queue leaves that queue and every task
status untouched, because the `_process_finished_tasks` generator it creates
is never iterated; it does set the terminated flag and the `killed` status,
and a second terminate() is a no-op on the state. -/
theorem terminate_does_not_drain_finished :
    terminateExec c4Table c4Exec (some c4JM) =
      (c4Table, ⟨.killed, false, true, true⟩, some ⟨[], [(41, some 0)], true⟩) ∧
    statusOf c4Table 41 = .submitted ∧
    (terminateExec (terminateExec c4Table c4Exec (some c4JM)).1
        (terminateExec c4Table c4Exec (some c4JM)).2.1
        (terminateExec c4Table c4Exec (some c4JM)).2.2 =
      terminateExec c4Table c4Exec (some c4JM)) := by decide

/-- C6: with max_cpus = 0 the admission sweep submits nothing — the candidate
check `cpu_req + cores_used > max_cpus` fires immediately — although the CLI
help (src/kosmos/util/args.py) documents 0 as unlimited; with max_cpus = None
the same ready task is submitted. -/
theorem max_cpus_zero_blocks_admission :
    (runReadyTasks c6Table ⟨[61], []⟩ ⟨[], [], false⟩ (some 0)).submitted = [] ∧
    (runReadyTasks c6Table ⟨[61], []⟩ ⟨[], [], false⟩ none).submitted.map Task.id
      = [61] := by decide

/-- C7 counterexample: task 72 is returned by get_finished_tasks with exit
status 0 in the same batch as the must_succeed failure 71; the ExecutionFailed
raised while processing 71 abandons the rest of the batch, so 72's status is
never set to successful — it stays `submitted`. -/
theorem finished_after_abort_gets_no_transition :
    c7Run.outcome = .executionFailed ∧
    statusOf c7Run.table 71 = .failed ∧
    statusOf c7Run.table 72 = .submitted ∧
    statusOf c7Run.table 72 ≠ .successful := by decide

/-- C8 counterexample: resuming execution "w" (which exists in the store with
output_dir "d") while passing output_dir = None does not fall back to the
stored value: the assert on line 98 (`output_dir cannot be None`) fires
before the resume branch is reached. -/
theorem resume_with_none_output_dir_asserts :
    startExec c8Store "w" none false true none true = .error .assertionError := rfl

/-- C9 counterexample: the state of a successfully finished execution after
`run` re-enters it (a resume) is reachable, has status running, yet still has
finished_on set — `_execution_status_changed` never unsets finished_on — so
"finished_on is set iff status is terminal" is false. -/
theorem finished_on_persists_after_resume :
    ReachableExec c9Bad ∧
    c9Bad.status = .running ∧
    ¬(c9Bad.finished_on = true ↔
      (c9Bad.status = .successful ∨ c9Bad.status = .failed ∨ c9Bad.status = .killed)) :=
  ⟨.entry _ (.finish _ (.entry _ .init)), by decide, by decide⟩

theorem runEntryStep_spec (e : ExecState) :
    (runEntryStep e).status = .running ∧ (runEntryStep e).successful = false := by
  rcases e with ⟨st, su, fo, so⟩
  cases st <;> cases su <;> cases fo <;> cases so <;> decide

theorem submitted_sorted (mc : Option Nat) (tb : List Task) (g : Graph) (jm : JobManager) :
    List.Sorted cpuLE (runReadyTasks tb g jm mc).submitted := by
  rcases sweepGo_submitted_take mc (sortedReadyTasks tb g) tb jm with ⟨k, hk⟩
  have hs : List.Sorted cpuLE (sortedReadyTasks tb g) :=
    List.sorted_insertionSort cpuLE (readyTasks tb g)
  have : (runReadyTasks tb g jm mc).submitted = (sortedReadyTasks tb g).take k := hk
  rw [this]
  exact hs.sublist (List.take_sublist k _)

theorem processFinishedLoop_processed_subset (fin : List (Nat × Option Int)) (tb : List Task)
    (q : Graph) : ∀ p ∈ (processFinishedLoop fin tb q).processed, p ∈ fin := by
  induction fin generalizing tb q with
  | nil => intro p hp; exact absurd hp (List.not_mem_nil p)
  | cons hd rest ih =>
    obtain ⟨i, ex⟩ := hd
    rw [processFinishedLoop]
    split
    · exact fun p hp => List.mem_cons_of_mem _ (ih tb q p hp)
    · rename_i t hl
      by_cases hs : ex = some 0 ∨ t.NOOP
      · rw [if_pos hs]
        intro p hp
        rcases List.mem_cons.mp hp with hp | hp
        · exact hp ▸ List.mem_cons_self _ _
        · exact List.mem_cons_of_mem _ (ih _ _ p hp)
      · rw [if_neg hs]
        by_cases hm : t.must_succeed = false
        · rw [if_pos hm]
          intro p hp
          rcases List.mem_cons.mp hp with hp | hp
          · exact hp ▸ List.mem_cons_self _ _
          · exact List.mem_cons_of_mem _ (ih _ _ p hp)
        · rw [if_neg hm]
          intro p hp
          rcases List.mem_singleton.mp hp
          exact List.mem_cons_self _ _

/-- C5: whenever the scheduler loop hits a must_succeed task reported with a
non-zero exit status (recorded as the aborting task id), run raises
ExecutionFailed to the caller, calls terminate() — so JobManager.terminate has
run and the execution status is killed — and the offending task's status is
failed (and it is a must_succeed task).  The raise itself is modelled from the
spec (sections 4.1 and 7). -/
theorem must_succeed_failure_aborts (table0 : List Task) (g : Graph) (mc : Option Nat)
    (sched : List (List (Nat × Option Int))) (fod fld fcmd : Task → String) (dry : Bool)
    (e0 : ExecState) (i : Nat)
    (h : (runExec table0 g mc sched fod fld fcmd dry e0).aborted = some i) :
    (runExec table0 g mc sched fod fld fcmd dry e0).outcome = .executionFailed ∧
    (runExec table0 g mc sched fod fld fcmd dry e0).exec.status = .killed ∧
    (runExec table0 g mc sched fod fld fcmd dry e0).jm.terminated = true ∧
    ∃ t, lookupTask (runExec table0 g mc sched fod fld fcmd dry e0).table i = some t ∧
      t.must_succeed = true ∧ t.status = .failed := by
  rcases runExec_cases table0 g mc sched fod fld fcmd dry e0 with
    ⟨tq, hE⟩ | ⟨tb, tq, _, hE⟩ | ⟨tb, tq, _, hE⟩
  · rw [hE] at h; exact absurd h (by simp)
  · rw [hE] at h; exact absurd h (by simp)
  · rw [hE] at h ⊢
    exact runLoopGo_abort mc sched tb tq ⟨[], [], false⟩ (runEntryStep e0) i h

/-- C5 witness: the concrete must_succeed failure of c5Run. -/
theorem must_succeed_failure_aborts_witness :
    c5Run.aborted = some 51 ∧
    (c5Run.outcome = .executionFailed ∧ c5Run.exec.status = .killed ∧
     c5Run.jm.terminated = true ∧
     ∃ t, lookupTask c5Run.table 51 = some t ∧ t.must_succeed = true ∧ t.status = .failed) :=
  ⟨by decide,
    must_succeed_failure_aborts [{ id := 51, cpu_req := 2, must_succeed := true, NOOP := false }]
      ⟨[51], []⟩ (some 4) [[(51, some 3)]]
      (fun _ => "o") (fun t => Nat.repr t.id) (fun _ => "c") false {} 51 (by decide)⟩

/-- C10: a dry run that passes the setup phase returns with no submission made
(nothing in flight, no admission loads) and with the execution still running
and not successful: the scheduler loop and the terminal status assignment sit
behind `if not dry` (line 220). -/
theorem dry_run_no_submissions (table0 : List Task) (g : Graph) (mc : Option Nat)
    (sched : List (List (Nat × Option Int))) (fod fld fcmd : Task → String) (e0 : ExecState)
    (h : (runExec table0 g mc sched fod fld fcmd true e0).outcome = .completed) :
    (runExec table0 g mc sched fod fld fcmd true e0).exec.status = .running ∧
    (runExec table0 g mc sched fod fld fcmd true e0).exec.successful = false ∧
    (runExec table0 g mc sched fod fld fcmd true e0).submissions = [] ∧
    (runExec table0 g mc sched fod fld fcmd true e0).jm.running = [] ∧
    (runExec table0 g mc sched fod fld fcmd true e0).loads = [] := by
  rcases runExec_cases table0 g mc sched fod fld fcmd true e0 with
    ⟨tq, hE⟩ | ⟨tb, tq, _, hE⟩ | ⟨tb, tq, hd, hE⟩
  · rw [hE] at h; exact absurd h (by simp)
  · rw [hE]
    exact ⟨(runEntryStep_spec e0).1, (runEntryStep_spec e0).2, rfl, rfl, rfl⟩
  · exact Bool.noConfusion hd

/-- C10 witness: the concrete dry run c10Run. -/
theorem dry_run_no_submissions_witness :
    c10Run.outcome = .completed ∧
    (c10Run.exec.status = .running ∧ c10Run.exec.successful = false ∧
     c10Run.submissions = [] ∧ c10Run.jm.running = [] ∧ c10Run.loads = []) :=
  ⟨by decide,
    dry_run_no_submissions
      [{ id := 1, cpu_req := 1, must_succeed := true, NOOP := false },
       { id := 2, cpu_req := 1, must_succeed := true, NOOP := true }]
      ⟨[1, 2], [(1, 2)]⟩ (some 8) [[(1, some 0)], [(2, none)]]
      (fun _ => "o") (fun t => Nat.repr t.id) (fun _ => "c") {} (by decide)⟩

/-- C2: the admission sweep considers ready tasks in ascending cpu_req order
(the submitted list is sorted and is a prefix of the sorted ready list, so the
sweep stops at the first over-budget candidate and skips nothing), and at
every point during run the sum of cpu_req over JobManager.running_tasks —
recorded after every submission — stays at or below max_cpus.  The
running-task bookkeeping of JobManager is modelled from the spec
(section 6). -/
theorem cpu_budget_invariant (m : Nat) :
    (∀ (table0 : List Task) (g : Graph) (sched : List (List (Nat × Option Int)))
        (fod fld fcmd : Task → String) (dry : Bool) (e0 : ExecState) (l : Nat),
      l ∈ (runExec table0 g (some m) sched fod fld fcmd dry e0).loads → l ≤ m) ∧
    (∀ (tb : List Task) (g : Graph) (jm : JobManager),
      List.Sorted cpuLE (runReadyTasks tb g jm (some m)).submitted) ∧
    (∀ (tb : List Task) (g : Graph) (jm : JobManager),
      ∃ k, (runReadyTasks tb g jm (some m)).submitted = (sortedReadyTasks tb g).take k) := by
  refine ⟨?_, fun tb g jm => submitted_sorted (some m) tb g jm,
    fun tb g jm => sweepGo_submitted_take (some m) (sortedReadyTasks tb g) tb jm⟩
  intro table0 g sched fod fld fcmd dry e0 l hl
  rcases runExec_cases table0 g (some m) sched fod fld fcmd dry e0 with
    ⟨tq, hE⟩ | ⟨tb, tq, _, hE⟩ | ⟨tb, tq, _, hE⟩
  · rw [hE] at hl; exact absurd hl (List.not_mem_nil l)
  · rw [hE] at hl; exact absurd hl (List.not_mem_nil l)
  · rw [hE] at hl
    refine runLoopGo_loads m sched tb tq ⟨[], [], false⟩ (runEntryStep e0) ?_ l hl
    simp [coresUsed]

/-- C2 witness: the concrete bounded run c2Run and its sweep. -/
theorem cpu_budget_invariant_witness :
    (2 ∈ c2Run.loads ∧ 2 ≤ 4) ∧
    List.Sorted cpuLE (runReadyTasks c2Table ⟨[21], []⟩ ⟨[], [], false⟩ (some 4)).submitted :=
  ⟨⟨by decide,
    (cpu_budget_invariant 4).1 c2Table ⟨[21], []⟩ [[(21, some 0)]]
      (fun _ => "o") (fun t => Nat.repr t.id) (fun _ => "c") false {} 2 (by decide)⟩,
   (cpu_budget_invariant 4).2.1 c2Table ⟨[21], []⟩ ⟨[], [], false⟩⟩

/-- C3 amended: every task the scheduler loop removes is removed either with
status already successful (success and NOOP cases) or — for a soft failure —
while its status is still submitted, with failed assigned immediately after
the removal, before the next finished task is handled; a task is never
removed while its status is no_attempt. -/
theorem removal_status_characterization (table0 : List Task) (g : Graph) (mc : Option Nat)
    (sched : List (List (Nat × Option Int))) (fod fld fcmd : Task → String) (dry : Bool)
    (e0 : ExecState) :
    ∀ x ∈ (runExec table0 g mc sched fod fld fcmd dry e0).removals,
      (x.2.1 = TaskStatus.successful ∧ x.2.2 = TaskStatus.successful) ∨
      (x.2.1 = TaskStatus.submitted ∧ x.2.2 = TaskStatus.failed) := by
  intro x hx
  rcases runExec_cases table0 g mc sched fod fld fcmd dry e0 with
    ⟨tq, hE⟩ | ⟨tb, tq, _, hE⟩ | ⟨tb, tq, _, hE⟩
  · rw [hE] at hx; exact absurd hx (List.not_mem_nil x)
  · rw [hE] at hx; exact absurd hx (List.not_mem_nil x)
  · rw [hE] at hx
    exact runLoopGo_removals mc sched tb tq ⟨[], [], false⟩ (runEntryStep e0)
      (fun j hj => absurd hj (List.not_mem_nil j)) rfl x hx

/-- C3 amended witness: the successful removal of c3OkRun. -/
theorem removal_status_characterization_witness :
    (32, TaskStatus.successful, TaskStatus.successful) ∈ c3OkRun.removals ∧
    ((((32, TaskStatus.successful, TaskStatus.successful) :
        Nat × TaskStatus × TaskStatus).2.1 = TaskStatus.successful ∧
      ((32, TaskStatus.successful, TaskStatus.successful) :
        Nat × TaskStatus × TaskStatus).2.2 = TaskStatus.successful) ∨
     (((32, TaskStatus.successful, TaskStatus.successful) :
        Nat × TaskStatus × TaskStatus).2.1 = TaskStatus.submitted ∧
      ((32, TaskStatus.successful, TaskStatus.successful) :
        Nat × TaskStatus × TaskStatus).2.2 = TaskStatus.failed)) :=
  ⟨by decide,
    removal_status_characterization
      [{ id := 32, cpu_req := 1, must_succeed := true, NOOP := false }]
      ⟨[32], []⟩ none [[(32, some 0)]]
      (fun _ => "o") (fun t => Nat.repr t.id) (fun _ => "c") false {}
      (32, TaskStatus.successful, TaskStatus.successful) (by decide)⟩

theorem exec_inv_init :
    (initExecState.successful = true ↔ initExecState.status = .successful) ∧
    ((initExecState.status = .successful ∨ initExecState.status = .failed ∨
      initExecState.status = .killed) → initExecState.finished_on = true) := by
  decide

theorem exec_inv_entry (e : ExecState) :
    ((runEntryStep e).successful = true ↔ (runEntryStep e).status = .successful) ∧
    (((runEntryStep e).status = .successful ∨ (runEntryStep e).status = .failed ∨
      (runEntryStep e).status = .killed) → (runEntryStep e).finished_on = true) := by
  rcases e with ⟨st, su, fo, so⟩
  cases st <;> cases su <;> cases fo <;> cases so <;> decide

theorem exec_inv_finish (e : ExecState)
    (h : (e.successful = true ↔ e.status = .successful) ∧
      ((e.status = .successful ∨ e.status = .failed ∨ e.status = .killed) →
        e.finished_on = true)) :
    ((setExecStatus e .successful).successful = true ↔
      (setExecStatus e .successful).status = .successful) ∧
    (((setExecStatus e .successful).status = .successful ∨
      (setExecStatus e .successful).status = .failed ∨
      (setExecStatus e .successful).status = .killed) →
      (setExecStatus e .successful).finished_on = true) := by
  rcases e with ⟨st, su, fo, so⟩
  revert h
  cases st <;> cases su <;> cases fo <;> cases so <;> decide

theorem exec_inv_kill (e : ExecState) (hg : e.successful = false)
    (h : (e.successful = true ↔ e.status = .successful) ∧
      ((e.status = .successful ∨ e.status = .failed ∨ e.status = .killed) →
        e.finished_on = true)) :
    ((setExecStatus e .killed).successful = true ↔
      (setExecStatus e .killed).status = .successful) ∧
    (((setExecStatus e .killed).status = .successful ∨
      (setExecStatus e .killed).status = .failed ∨
      (setExecStatus e .killed).status = .killed) →
      (setExecStatus e .killed).finished_on = true) := by
  rcases e with ⟨st, su, fo, so⟩
  revert hg h
  cases st <;> cases su <;> cases fo <;> cases so <;> decide

/-- C9 amended: over every reachable execution state, `successful` is true
exactly when the status is successful, and `finished_on` is set whenever the
status is terminal (successful, failed or killed); the converse of the
finished_on clause fails after a resume because `_execution_status_changed`
never unsets `finished_on` (see the counterexample). -/
theorem exec_flag_invariant (e : ExecState) (h : ReachableExec e) :
    (e.successful = true ↔ e.status = .successful) ∧
    ((e.status = .successful ∨ e.status = .failed ∨ e.status = .killed) →
      e.finished_on = true) := by
  induction h with
  | init => exact exec_inv_init
  | entry e' _ _ => exact exec_inv_entry e'
  | finish e' _ ih => exact exec_inv_finish e' ih
  | kill e' _ hg ih => exact exec_inv_kill e' hg ih

/-- C9 amended witness: the invariant at the freshly created state. -/
theorem exec_flag_invariant_witness :
    ReachableExec initExecState ∧
    ((initExecState.successful = true ↔ initExecState.status = .successful) ∧
     ((initExecState.status = .successful ∨ initExecState.status = .failed ∨
       initExecState.status = .killed) → initExecState.finished_on = true)) :=
  ⟨.init, exec_flag_invariant initExecState .init⟩

/-- C7 amended: in one drained batch (distinct task ids, as the DRM reports
each job once), every task reached before the ExecutionFailed abort — and the
aborting task itself — is set to successful exactly when it is NOOP or its
exit status is 0 and to failed otherwise; every task of the batch that the
abort prevented from being processed keeps its previous status, receiving no
transition. -/
theorem finished_batch_transition (fin : List (Nat × Option Int)) (tb : List Task) (q : Graph)
    (hnd : (fin.map Prod.fst).Nodup) :
    (∀ p ∈ (processFinishedLoop fin tb q).processed, ∀ t, lookupTask tb p.1 = some t →
      statusOf (processFinishedLoop fin tb q).table p.1 =
        (if p.2 = some 0 ∨ t.NOOP = true then TaskStatus.successful else TaskStatus.failed)) ∧
    (∀ p ∈ fin, p ∉ (processFinishedLoop fin tb q).processed →
      statusOf (processFinishedLoop fin tb q).table p.1 = statusOf tb p.1) := by
  induction fin generalizing tb q with
  | nil =>
    exact ⟨fun p hp => absurd hp (List.not_mem_nil p),
           fun p hp => absurd hp (List.not_mem_nil p)⟩
  | cons hd rest ih =>
    obtain ⟨i, ex⟩ := hd
    have hnd' : (rest.map Prod.fst).Nodup := (List.nodup_cons.mp hnd).2
    have hni : i ∉ rest.map Prod.fst := (List.nodup_cons.mp hnd).1
    rw [processFinishedLoop]
    split
    · refine ⟨fun p hp t ht => (ih tb q hnd').1 p hp t ht, ?_⟩
      intro p hp hnp
      rcases List.mem_cons.mp hp with hp | hp
      · rw [hp]
        exact processFinishedLoop_statusOf_ne rest tb q i hni
      · exact (ih tb q hnd').2 p hp hnp
    · rename_i t hl
      by_cases hs : ex = some 0 ∨ t.NOOP = true
      · rw [if_pos hs]
        refine ⟨?_, ?_⟩
        · intro p hp t' ht'
          rcases List.mem_cons.mp hp with hp | hp
          · rw [hp] at ht' ⊢
            have heq : t' = t := (Option.some.inj (hl.symm.trans ht')).symm
            rw [heq]
            have h1 : statusOf (processFinishedLoop rest
                (updateTask tb i (fun u => { u with status := TaskStatus.successful }))
                (q.removeNode i)).table i =
                statusOf (updateTask tb i
                  (fun u => { u with status := TaskStatus.successful })) i :=
              processFinishedLoop_statusOf_ne rest _ _ i hni
            have h2 : statusOf (updateTask tb i
                (fun u => { u with status := TaskStatus.successful })) i =
                TaskStatus.successful :=
              Eq.trans (statusOf_updateTask_self tb i _ t (fun u => rfl) hl) rfl
            exact (h1.trans h2).trans (if_pos hs).symm
          · have hpfin : p ∈ rest := processFinishedLoop_processed_subset rest _ _ p hp
            have hpne : p.1 ≠ i := fun hc => hni (hc ▸ List.mem_map_of_mem Prod.fst hpfin)
            have ht1 : lookupTask (updateTask tb i
                (fun u => { u with status := TaskStatus.successful })) p.1 = some t' := by
              rw [lookupTask_updateTask tb i p.1
                (fun u => { u with status := TaskStatus.successful }) (fun u => rfl),
                if_neg hpne]
              exact ht'
            exact (ih _ _ hnd').1 p hp t' ht1
        · intro p hp hnp
          rcases List.mem_cons.mp hp with hp | hp
          · exact absurd (by rw [hp]; exact List.mem_cons_self _ _) hnp
          · have hnp' : p ∉ (processFinishedLoop rest
                (updateTask tb i (fun u => { u with status := TaskStatus.successful }))
                (q.removeNode i)).processed := fun hc => hnp (List.mem_cons_of_mem _ hc)
            have hpne : p.1 ≠ i := fun hc => hni (hc ▸ List.mem_map_of_mem Prod.fst hp)
            exact ((ih _ _ hnd').2 p hp hnp').trans
              (statusOf_updateTask_ne tb i p.1 _ (fun u => rfl) hpne)
      · rw [if_neg hs]
        by_cases hm : t.must_succeed = false
        · rw [if_pos hm]
          refine ⟨?_, ?_⟩
          · intro p hp t' ht'
            rcases List.mem_cons.mp hp with hp | hp
            · rw [hp] at ht' ⊢
              have heq : t' = t := (Option.some.inj (hl.symm.trans ht')).symm
              rw [heq]
              have h1 : statusOf (processFinishedLoop rest
                  (updateTask tb i (fun u => { u with status := TaskStatus.failed }))
                  (q.removeNode i)).table i =
                  statusOf (updateTask tb i
                    (fun u => { u with status := TaskStatus.failed })) i :=
                processFinishedLoop_statusOf_ne rest _ _ i hni
              have h2 : statusOf (updateTask tb i
                  (fun u => { u with status := TaskStatus.failed })) i =
                  TaskStatus.failed :=
                Eq.trans (statusOf_updateTask_self tb i _ t (fun u => rfl) hl) rfl
              exact (h1.trans h2).trans (if_neg hs).symm
            · have hpfin : p ∈ rest := processFinishedLoop_processed_subset rest _ _ p hp
              have hpne : p.1 ≠ i := fun hc => hni (hc ▸ List.mem_map_of_mem Prod.fst hpfin)
              have ht1 : lookupTask (updateTask tb i
                  (fun u => { u with status := TaskStatus.failed })) p.1 = some t' := by
                rw [lookupTask_updateTask tb i p.1
                  (fun u => { u with status := TaskStatus.failed }) (fun u => rfl),
                  if_neg hpne]
                exact ht'
              exact (ih _ _ hnd').1 p hp t' ht1
          · intro p hp hnp
            rcases List.mem_cons.mp hp with hp | hp
            · exact absurd (by rw [hp]; exact List.mem_cons_self _ _) hnp
            · have hnp' : p ∉ (processFinishedLoop rest
                  (updateTask tb i (fun u => { u with status := TaskStatus.failed }))
                  (q.removeNode i)).processed := fun hc => hnp (List.mem_cons_of_mem _ hc)
              have hpne : p.1 ≠ i := fun hc => hni (hc ▸ List.mem_map_of_mem Prod.fst hp)
              exact ((ih _ _ hnd').2 p hp hnp').trans
                (statusOf_updateTask_ne tb i p.1 _ (fun u => rfl) hpne)
        · rw [if_neg hm]
          refine ⟨?_, ?_⟩
          · intro p hp t' ht'
            rcases List.mem_singleton.mp hp
            have heq : t' = t := (Option.some.inj (hl.symm.trans ht')).symm
            rw [heq]
            exact (Eq.trans (statusOf_updateTask_self tb i
              (fun u => { u with status := TaskStatus.failed }) t (fun u => rfl) hl) rfl).trans
              (if_neg hs).symm
          · intro p hp hnp
            rcases List.mem_cons.mp hp with hp | hp
            · exact absurd (by rw [hp]; exact List.mem_cons_self _ _) hnp
            · have hpne : p.1 ≠ i := fun hc => hni (hc ▸ List.mem_map_of_mem Prod.fst hp)
              exact statusOf_updateTask_ne tb i p.1 _ (fun u => rfl) hpne

/-- C7 amended witness: a one-entry batch whose task gets the successful
transition. -/
theorem finished_batch_transition_witness :
    (c7aBatch.map Prod.fst).Nodup ∧
    ((81, some 0) ∈ (processFinishedLoop c7aBatch c7aTable ⟨[81], []⟩).processed) ∧
    statusOf (processFinishedLoop c7aBatch c7aTable ⟨[81], []⟩).table 81 =
      TaskStatus.successful :=
  ⟨by decide, by decide, by
    have h := (finished_batch_transition c7aBatch c7aTable ⟨[81], []⟩ (by decide)).1
      ((81 : Nat), some (0 : Int)) (by decide)
      { id := 81, cpu_req := 1, must_succeed := true, NOOP := false, status := .submitted }
      (by decide)
    simpa using h⟩

theorem startExec_resume_eq (s : Store) (name od : String) (pc : Bool) (mc : Option Nat)
    (ca : Bool) :
    startExec s name (some od) false pc mc ca =
      match findExec s name with
      | some ex =>
        if ex.output_dir = od then
          .ok ({ s with executions := s.executions.map (fun r =>
                   if r.name = name then
                     { ex with max_cpus := mc, tasks := ex.tasks.filter (fun t => t.successful) }
                   else r) },
               { ex with max_cpus := mc, tasks := ex.tasks.filter (fun t => t.successful) })
        else .error .assertionError
      | none =>
        if s.existingPaths.contains od then .error .assertionError
        else
          .ok ({ executions := s.executions ++
                   [{ id := none, name := name, output_dir := od, max_cpus := mc, tasks := [] }],
                 existingPaths := od :: s.existingPaths },
               { id := none, name := name, output_dir := od, max_cpus := mc, tasks := [] }) :=
  rfl

/-- C8 amended: on a resume (an execution with the same name exists and
restart is false) the caller must pass a non-null output_dir — passing None
trips the entry assert instead of falling back to the stored value (see the
counterexample) — and then: if it equals the stored output_dir, start
succeeds, reassigns max_cpus, deletes every persisted task row with
successful == false and keeps the rows with successful == true; if it
differs, start raises an AssertionError. -/
theorem resume_semantics (s : Store) (name od : String) (pc : Bool) (mc : Option Nat)
    (ca : Bool) (ex : ExecRow) (hfind : findExec s name = some ex) :
    (ex.output_dir = od →
      startExec s name (some od) false pc mc ca =
        .ok ({ s with executions := s.executions.map (fun r =>
                 if r.name = name then
                   { ex with max_cpus := mc, tasks := ex.tasks.filter (fun t => t.successful) }
                 else r) },
             { ex with max_cpus := mc, tasks := ex.tasks.filter (fun t => t.successful) })) ∧
    (ex.output_dir ≠ od →
      startExec s name (some od) false pc mc ca = .error .assertionError) := by
  constructor
  · intro hod
    rw [startExec_resume_eq, hfind]
    exact if_pos hod
  · intro hod
    rw [startExec_resume_eq, hfind]
    exact if_neg hod

/-- C8 amended witness: resuming c8Store's execution "w" with the stored
output_dir "d" keeps exactly the successful task row. -/
theorem resume_semantics_witness :
    findExec c8Store "w" = some c8Row ∧ c8Row.output_dir = "d" ∧
    startExec c8Store "w" (some "d") false true none true =
      .ok ({ c8Store with executions := c8Store.executions.map (fun r =>
               if r.name = "w" then
                 { c8Row with max_cpus := none, tasks := c8Row.tasks.filter (fun t => t.successful) }
               else r) },
           { c8Row with max_cpus := none, tasks := c8Row.tasks.filter (fun t => t.successful) }) :=
  ⟨rfl, rfl,
    (resume_semantics c8Store "w" "d" true none true c8Row rfl).1 rfl⟩

end Kosmos
